import Mathlib

/-!
Verification of the keyword-aggregation core of the news keyword
visualization app (src/main.py, src/test.py).

The pipeline under verification: fetch-and-clean, tokenize-and-filter,
per-article top-N selection (pandas `value_counts().head(n)`),
cross-article dual-count aggregation (`total_stats`), and deterministic
ranking (`sorted(..., key=lambda x: (x[1][0], x[1][1]), reverse=True)`),
plus the stopword store (`load_user_stopwords` / `save_user_stopwords`)
and the fetch pipeline's failure policy.

Python dicts preserve insertion order, so the aggregate table is embedded
as an association list `List (String × Nat × Nat)` whose list order is the
insertion (first-seen) order; each entry is
`(token, (articleOccurrenceCount, totalFrequency))`.
-/

namespace NewsKeyword

/-- The aggregate statistic table `total_stats`: insertion-ordered
association list `token ↦ (articleOccurrenceCount, totalFrequency)`,
mirroring a Python dict `{단어: [기사발생수, 총언급횟수]}`. -/
abbrev Table := List (String × Nat × Nat)

/-- One `(word, count)` step of the dual-counting fold
(main.py lines 221-225, test.py lines 281-285):

    if word not in total_stats:
        total_stats[word] = [0, 0]
    total_stats[word][0] += 1
    total_stats[word][1] += count

A missing key is first appended at the end with `(0, 0)` (Python dict
insertion order), then the entry for `word` is bumped in place. -/
def foldWord (stats : Table) (word : String) (count : Nat) : Table :=
  let stats' := if (stats.lookup word).isSome then stats
                else stats ++ [(word, (0, 0))]
  stats'.map (fun e => if e.1 = word then (e.1, (e.2.1 + 1, e.2.2 + count)) else e)

/-- Folding one article's per-article keyword map into the table:
`for word, count in top_n.items(): ...` (the body being `foldWord`). -/
def foldArticle (stats : Table) (m : List (String × Nat)) : Table :=
  m.foldl (fun s p => foldWord s p.1 p.2) stats

/-- The whole aggregation over the stream of per-article keyword maps,
starting from the empty dict `total_stats = {}`. -/
def aggregate (maps : List (List (String × Nat))) : Table :=
  maps.foldl foldArticle []

/-- Descending-by-key comparison used to model CPython's stable `sorted`
with `reverse=True`: `a` may stay before `b` iff `κ b ≤ κ a`. -/
def keyLe {α β : Type} [LinearOrder β] (κ : α → β) (a b : α) : Prop :=
  κ b ≤ κ a

instance keyLeDecidable {α β : Type} [LinearOrder β] (κ : α → β) :
    DecidableRel (keyLe κ) :=
  fun a b => inferInstanceAs (Decidable (κ b ≤ κ a))

instance keyLeTotal {α β : Type} [LinearOrder β] (κ : α → β) :
    IsTotal α (keyLe κ) :=
  ⟨fun a b => (le_total (κ b) (κ a)).imp id id⟩

instance keyLeTrans {α β : Type} [LinearOrder β] (κ : α → β) :
    IsTrans α (keyLe κ) :=
  ⟨fun _ _ _ hab hbc => le_trans hbc hab⟩

/-- The ranking step (main.py line 232, test.py lines 288-291):

    sorted_stats = dict(sorted(total_stats.items(),
                               key=lambda x: (x[1][0], x[1][1]), reverse=True))

CPython's `sorted` is a stable sort; `reverse=True` orders by the key tuple
descending while keeping elements with equal keys in their original
(insertion) order, which is exactly a stable insertion sort under
`keyLe (toLex ∘ value)`. Python compares the tuples lexicographically. -/
def sorted_stats (T : Table) : Table :=
  List.insertionSort (keyLe fun e : String × Nat × Nat => toLex e.2) T

/-- The distinct values of a list in order of first occurrence — the index
of `pd.Series(words).value_counts()`, whose underlying hash table records
keys in first-appearance order. -/
def uniqueInOrder : List String → List String
  | [] => []
  | w :: ws => w :: (uniqueInOrder ws).filter (fun x => decide (x ≠ w))

/-- The unsorted counting result underlying
`pd.Series(words).value_counts()`: one `(word, in-article count)` row per
distinct word, rows in first-appearance order (the hash table of
`value_counts` records keys in first-appearance order). -/
def counts_series (words : List String) : List (String × Nat) :=
  (uniqueInOrder words).map (fun w => (w, words.count w))

/-- `pd.Series(words).value_counts()`: the counting rows sorted by count
descending; pandas sorts the first-appearance-ordered unique index with a
stable sort, so ties keep first-occurrence order. -/
def value_counts (words : List String) : List (String × Nat) :=
  List.insertionSort (keyLe fun p : String × Nat => p.2) (counts_series words)

/-- `pd.Series(words).value_counts().head(n)` — the per-article top-`n`
selection (main.py lines 216-218, test.py lines 118-119). -/
def value_counts_head (words : List String) (n : Nat) : List (String × Nat) :=
  (value_counts words).take n

/-- The token filter (main.py line 214, test.py line 116):
`[t for t in tokens if 2 <= len(t) <= 10 and t not in stopwords]`. -/
def filter_words (tokens : List String) (stopwords : Finset String) :
    List String :=
  tokens.filter (fun t => decide (2 ≤ t.length ∧ t.length ≤ 10 ∧ t ∉ stopwords))

/-- Outcome of fetching / parsing / tokenizing one article, before counting.
`ok tokens` carries the tokenizer output for a successfully fetched naver
article page with a recognized content tag; the other constructors are the
short-circuit and swallowed-exception paths of
`extract_keywords_from_article` (test.py lines 96-122) and of the inline
try/except block in main.py lines 204-228. -/
inductive FetchResult where
  | notNaverLink : FetchResult
  | fetchError : FetchResult
  | noContentTag : FetchResult
  | tokenizeError : FetchResult
  | ok : List String → FetchResult
deriving DecidableEq

/-- Per-article keyword extraction: non-naver links, fetch errors, missing
content tags and tokenizer failures all yield the empty map `{}`; a
successful article is filtered against length bounds and stopwords and then
truncated with `value_counts().head(n)`. -/
def extract_keywords_from_article (a : FetchResult) (stopwords : Finset String)
    (n : Nat) : List (String × Nat) :=
  match a with
  | .ok tokens => value_counts_head (filter_words tokens stopwords) n
  | _ => []

/-- An article whose body fetch raises (connection error / timeout). -/
def isUnreachable : FetchResult → Bool
  | .fetchError => true
  | _ => false

/-- The per-article analysis loop: every article is extracted (failures
contributing the empty map) and folded into `total_stats`; the loop never
aborts on a per-article failure (`except: continue` in main.py,
`except: pass` in test.py). -/
def run_analysis (articles : List FetchResult) (stopwords : Finset String)
    (n : Nat) : Table :=
  aggregate (articles.map (fun a => extract_keywords_from_article a stopwords n))

/-- One item of the search-API response (title, link, pubDate). -/
structure NewsItem where
  title : String
  link : String
  pubDate : String
deriving DecidableEq

/-- Outcome of one paginated call to the news-search API. -/
inductive ApiOutcome where
  | ok : List NewsItem → ApiOutcome
  | httpError : Nat → ApiOutcome
  | connError : ApiOutcome
deriving DecidableEq

/-- The distinct error reports of main.py's `get_naver_news`
(lines 52-62): 401 → invalid key, 403 → quota/permission, other HTTP
codes → generic API error, any other exception → connection error. -/
inductive ApiErrKind where
  | invalidKey : ApiErrKind
  | quotaOrPermission : ApiErrKind
  | otherHttp : Nat → ApiErrKind
  | connection : ApiErrKind
deriving DecidableEq

/-- main.py `get_naver_news` return value: the item list on success,
`None` on every error path. -/
def get_naver_news_main : ApiOutcome → Option (List NewsItem)
  | .ok items => some items
  | .httpError _ => none
  | .connError => none

/-- main.py `get_naver_news` error reporting (the `st.error` branches):
each failure class surfaces a distinct kind. -/
def naver_error_kind : ApiOutcome → Option ApiErrKind
  | .ok _ => none
  | .httpError code =>
      some (if code = 401 then ApiErrKind.invalidKey
            else if code = 403 then ApiErrKind.quotaOrPermission
            else ApiErrKind.otherHttp code)
  | .connError => some ApiErrKind.connection

/-- main.py pagination loop (lines 193-195):

    items = []
    for i in range(m_amount // 100):
        items.extend(get_naver_news(search_keyword, 100, (i*100)+1))

`list.extend(None)` raises `TypeError`, which nothing catches: the script
run aborts before any aggregation, so a `None` page yields no item list at
all (modelled as `none`, absorbing the rest of the loop). -/
def extend_items (acc : Option (List NewsItem)) (page : ApiOutcome) :
    Option (List NewsItem) :=
  match acc, get_naver_news_main page with
  | some its, some fresh => some (its ++ fresh)
  | _, _ => none

/-- The whole `items` accumulation of main.py's pagination loop. -/
def collect_items_main (pages : List ApiOutcome) : Option (List NewsItem) :=
  pages.foldl extend_items (some [])

/-- test.py `get_naver_news` (lines 79-87): every exception — HTTP error
status via `raise_for_status` included — is caught, logged, and turned into
an empty item list indistinguishable from a successful empty response. -/
def get_naver_news_test : ApiOutcome → List NewsItem
  | .ok items => items
  | _ => []

/-- test.py pagination loop (lines 256-262): pages are fetched in turn,
each truncated to the remaining budget, and the loop stops early only once
`max_articles` items are collected; a failed page contributes nothing and
the loop simply continues. -/
def collect_items_test :
    List ApiOutcome → Nat → List NewsItem → List NewsItem
  | [], _, acc => acc
  | page :: pages, maxArticles, acc =>
      let acc' := acc ++ (get_naver_news_test page).take (maxArticles - acc.length)
      if maxArticles ≤ acc'.length then acc'
      else collect_items_test pages maxArticles acc'

/-- `save_user_stopwords` (main.py lines 33-37, test.py lines 53-55):
`json.dump(list(sorted(stopwords_set)), f, ensure_ascii=False)` — opens the
file in mode w, so the prior contents are fully overwritten with the sorted
element list of the set. The file contents are modelled as
`Option (List String)` (`none` = missing or corrupt). -/
def save_user_stopwords (s : Finset String)
    (_priorContents : Option (List String)) : Option (List String) :=
  some (s.sort (fun a b => a ≤ b))

/-- `load_user_stopwords` (main.py lines 25-31, test.py lines 44-51):
`set(json.load(f))` on success, the empty set when the file is missing or
unreadable. -/
def load_user_stopwords : Option (List String) → Finset String
  | none => ∅
  | some l => l.toFinset

/-- Stopword addition (main.py line 275 / 310, test.py line 335):
`saved_stops.union(set(to_add))`. -/
def add_stopwords (saved toAdd : Finset String) : Finset String :=
  saved ∪ toAdd

/-- Stopword removal (main.py line 298, test.py line 231):
`saved_stops - set(to_del)`. -/
def remove_stopwords (saved toDel : Finset String) : Finset String :=
  saved \ toDel

/-- The displayed result rows (test.py lines 312-318): the ranked table
truncated to the top `top_n` entries, from which the view computes
`'TF/기사': count[1]/count[0]` for every row. -/
def displayed_stats (maps : List (List (String × Nat))) (topN : Nat) : Table :=
  (sorted_stats (aggregate maps)).take topN

/-- `if`-form of association-list lookup at a cons cell. -/
lemma lookup_cons_if {β : Type} (k : String) (b : β) (l : List (String × β))
    (w : String) :
    ((k, b) :: l).lookup w = if w = k then some b else l.lookup w := by
  by_cases h : w = k
  · simp [List.lookup_cons, h]
  · have hb : (w == k) = false := beq_eq_false_iff_ne.mpr h
    simp [List.lookup_cons, hb, h]

/-- Looking a key up after the in-place bump of the entries with key `v`
rewrites only that key's value. -/
lemma lookup_map_bump (L : Table) (v : String) (c : Nat) (w : String) :
    (L.map (fun e => if e.1 = v then (e.1, (e.2.1 + 1, e.2.2 + c)) else e)).lookup w
      = if w = v then (L.lookup w).map (fun p => (p.1 + 1, p.2 + c))
        else L.lookup w := by
  induction L with
  | nil => by_cases h : w = v <;> simp [h, List.lookup]
  | cons e l ih =>
    obtain ⟨k, b⟩ := e
    by_cases hk : k = v
    · subst hk
      by_cases hw : w = k <;> simp [lookup_cons_if, hw, ih]
    · by_cases hw : w = k
      · subst hw
        simp [lookup_cons_if, hk, if_neg hk]
      · simp [lookup_cons_if, hk, hw, ih]

/-- Association-list lookup over an append scans the left part first. -/
lemma lookup_append (L M : Table) (w : String) :
    (L ++ M).lookup w = (L.lookup w).or (M.lookup w) := by
  induction L with
  | nil => simp [List.lookup]
  | cons e l ih =>
    obtain ⟨k, b⟩ := e
    by_cases hw : w = k <;> simp [lookup_cons_if, hw, ih]

/-- Effect of a single dual-counting step on lookups: the updated word maps
to its previous value (defaulting to `(0, 0)` when unseen) incremented by
`(1, count)`; every other word is untouched. -/
lemma lookup_foldWord (T : Table) (v : String) (c : Nat) (w : String) :
    (foldWord T v c).lookup w
      = if w = v then
          some (((T.lookup v).getD (0, 0)).1 + 1, ((T.lookup v).getD (0, 0)).2 + c)
        else T.lookup w := by
  unfold foldWord
  cases h : T.lookup v with
  | some val =>
    simp only [h, Option.isSome_some, if_true]
    rw [lookup_map_bump]
    by_cases hw : w = v
    · subst hw; rw [if_pos rfl, if_pos rfl, h]; simp
    · rw [if_neg hw, if_neg hw]
  | none =>
    simp only [h, Option.isSome_none, Bool.false_eq_true, if_false]
    rw [lookup_map_bump]
    by_cases hw : w = v
    · subst hw
      rw [if_pos rfl, if_pos rfl, lookup_append, h, lookup_cons_if, if_pos rfl]
      simp
    · rw [if_neg hw, if_neg hw, lookup_append, lookup_cons_if, if_neg hw]
      simp [List.lookup]

/-- A word not occurring in a per-article map is untouched by that
article's fold. -/
lemma lookup_foldArticle_not_mem (T : Table) (m : List (String × Nat))
    (w : String) (h : w ∉ m.map Prod.fst) :
    (foldArticle T m).lookup w = T.lookup w := by
  induction m generalizing T with
  | nil => rfl
  | cons p rest ih =>
    obtain ⟨v, c⟩ := p
    simp only [List.map_cons, List.mem_cons, not_or] at h
    have step : (foldWord T v c).lookup w = T.lookup w := by
      rw [lookup_foldWord, if_neg h.1]
    calc (foldArticle T ((v, c) :: rest)).lookup w
        = (foldArticle (foldWord T v c) rest).lookup w := rfl
      _ = (foldWord T v c).lookup w := ih (foldWord T v c) h.2
      _ = T.lookup w := step

/-- C1: dual counting of the aggregator fold. For every per-article keyword
map `m` (with distinct tokens, as a Python dict has) folded into the table
`T`, and for each `(token, freq)` pair of `m`: an unseen token is
initialized to `(0, 0)` and then bumped, so it ends at `(0 + 1, 0 + freq)`;
a seen token's pair `(a, t)` ends at `(a + 1, t + freq)` — the article
count grows by exactly 1 (once per contributing article) and the total
frequency by `freq`. Tokens absent from `m` are untouched. -/
theorem aggregator_dual_counting (T : Table) (m : List (String × Nat))
    (hnd : (m.map Prod.fst).Nodup) (w : String) (c : Nat) :
    ((w, c) ∈ m →
      (foldArticle T m).lookup w =
        some (((T.lookup w).getD (0, 0)).1 + 1, ((T.lookup w).getD (0, 0)).2 + c))
    ∧ (w ∉ m.map Prod.fst → (foldArticle T m).lookup w = T.lookup w) := by
  constructor
  · intro hmem
    induction m generalizing T with
    | nil => cases hmem
    | cons p rest ih =>
      obtain ⟨v, d⟩ := p
      simp only [List.map_cons, List.nodup_cons] at hnd
      rcases List.mem_cons.mp hmem with heq | hrest
      · injection heq with hw hc
        subst hw; subst hc
        have hnotin : w ∉ rest.map Prod.fst := hnd.1
        calc (foldArticle T ((w, c) :: rest)).lookup w
            = (foldArticle (foldWord T w c) rest).lookup w := rfl
          _ = (foldWord T w c).lookup w :=
              lookup_foldArticle_not_mem (foldWord T w c) rest w hnotin
          _ = some (((T.lookup w).getD (0, 0)).1 + 1,
                    ((T.lookup w).getD (0, 0)).2 + c) := by
              rw [lookup_foldWord, if_pos rfl]
      · have hwv : w ≠ v := by
          intro hwv
          exact hnd.1 (hwv ▸ (List.mem_map.mpr ⟨(w, c), hrest, rfl⟩))
        have hstep : (foldWord T v d).lookup w = T.lookup w := by
          rw [lookup_foldWord, if_neg hwv]
        calc (foldArticle T ((v, d) :: rest)).lookup w
            = (foldArticle (foldWord T v d) rest).lookup w := rfl
          _ = some ((((foldWord T v d).lookup w).getD (0, 0)).1 + 1,
                    (((foldWord T v d).lookup w).getD (0, 0)).2 + c) :=
              ih (foldWord T v d) hnd.2 hrest
          _ = _ := by rw [hstep]
  · exact lookup_foldArticle_not_mem T m w

/-- Witness for C1 on the spec's scenario: folding article 2's map
`{ai: 1, cloud: 2}` into the table left by article 1 (`{ai: (1, 2),
cloud: (1, 1)}`) bumps `ai` to `(2, 3)`, and leaves an absent token
(`server`) untouched. -/
theorem aggregator_dual_counting_witness :
    (foldArticle [("ai", (1, 2)), ("cloud", (1, 1))] [("ai", 1), ("cloud", 2)]).lookup "ai"
      = some (2, 3)
    ∧ (foldArticle [("ai", (1, 2)), ("cloud", (1, 1))] [("ai", 1), ("cloud", 2)]).lookup "server"
      = [(("ai" : String), ((1 : Nat), (2 : Nat))), ("cloud", (1, 1))].lookup "server" := by
  have h := aggregator_dual_counting [("ai", (1, 2)), ("cloud", (1, 1))]
      [("ai", 1), ("cloud", 2)] (by decide) "ai" 1
  have h2 := aggregator_dual_counting [("ai", (1, 2)), ("cloud", (1, 1))]
      [("ai", 1), ("cloud", 2)] (by decide) "server" 0
  refine ⟨?_, h2.2 (by decide)⟩
  have := h.1 (by decide)
  rw [this]
  decide

/-- A per-entry predicate survives one dual-counting step, provided it
survives the `(+1, +count)` bump and holds of the freshly created entry
`(word, (1, count))`. -/
lemma foldWord_preserves (P : String × Nat × Nat → Prop) (T : Table)
    (w : String) (c : Nat) (hT : ∀ e ∈ T, P e)
    (hbump : ∀ k a t, P (k, (a, t)) → P (k, (a + 1, t + c)))
    (hnew : P (w, (1, c))) :
    ∀ e ∈ foldWord T w c, P e := by
  intro e he
  unfold foldWord at he
  rcases List.mem_map.mp he with ⟨e0, he0, rfl⟩
  obtain ⟨k, a, t⟩ := e0
  by_cases hs : (T.lookup w).isSome
  · rw [if_pos hs] at he0
    by_cases hk : k = w
    · simpa [hk] using hbump k a t (hT (k, (a, t)) he0)
    · simpa [hk] using hT (k, (a, t)) he0
  · rw [if_neg hs] at he0
    rcases List.mem_append.mp he0 with hin | hsingle
    · by_cases hk : k = w
      · simpa [hk] using hbump k a t (hT (k, (a, t)) hin)
      · simpa [hk] using hT (k, (a, t)) hin
    · rcases List.mem_singleton.mp hsingle with heq
      injection heq with h1 h2
      injection h2 with h2 h3
      subst h1; subst h2; subst h3
      simpa using hnew

/-- A per-entry predicate survives folding in a whole article, provided the
article's frequencies all satisfy the count guarantee `Q`. -/
lemma foldArticle_preserves (P : String × Nat × Nat → Prop) (Q : Nat → Prop)
    (hbump : ∀ k a t c, Q c → P (k, (a, t)) → P (k, (a + 1, t + c)))
    (hnew : ∀ w c, Q c → P (w, (1, c)))
    (m : List (String × Nat)) (hm : ∀ p ∈ m, Q p.2)
    (T : Table) (hT : ∀ e ∈ T, P e) :
    ∀ e ∈ foldArticle T m, P e := by
  induction m generalizing T with
  | nil => exact hT
  | cons p rest ih =>
    obtain ⟨v, c⟩ := p
    have hQc : Q c := hm (v, c) (List.mem_cons_self _ _)
    have hstep : ∀ e ∈ foldWord T v c, P e :=
      foldWord_preserves P T v c hT (fun k a t => hbump k a t c hQc)
        (hnew v c hQc)
    exact ih (fun q hq => hm q (List.mem_cons_of_mem _ hq)) (foldWord T v c) hstep

/-- A per-entry predicate holds of every entry of the aggregate table,
provided all folded frequencies satisfy `Q` (the empty start table holds it
vacuously). -/
lemma aggregate_preserves (P : String × Nat × Nat → Prop) (Q : Nat → Prop)
    (hbump : ∀ k a t c, Q c → P (k, (a, t)) → P (k, (a + 1, t + c)))
    (hnew : ∀ w c, Q c → P (w, (1, c)))
    (maps : List (List (String × Nat)))
    (hmaps : ∀ m ∈ maps, ∀ p ∈ m, Q p.2) :
    ∀ e ∈ aggregate maps, P e := by
  suffices h : ∀ T, (∀ e ∈ T, P e) → ∀ e ∈ maps.foldl foldArticle T, P e by
    exact h [] (by intro e he; cases he)
  induction maps with
  | nil => intro T hT; exact hT
  | cons m rest ih =>
    intro T hT
    have hmhead : ∀ p ∈ m, Q p.2 := hmaps m (List.mem_cons_self _ _)
    have hstep : ∀ e ∈ foldArticle T m, P e :=
      foldArticle_preserves P Q hbump hnew m hmhead T hT
    intro e he
    have hrest : ∀ m0 ∈ rest, ∀ p ∈ m0, Q p.2 := by
      intro m0 hm0
      exact hmaps m0 (List.mem_cons_of_mem _ hm0)
    exact ih hrest (foldArticle T m) hstep e he

/-- C2: final-table invariant. After aggregating any sequence of
per-article keyword maps whose frequencies are all at least 1, every entry
of `total_stats` satisfies `1 ≤ articleOccurrenceCount` and
`articleOccurrenceCount ≤ totalFrequency`. -/
theorem final_table_invariant (maps : List (List (String × Nat)))
    (hfreq : ∀ m ∈ maps, ∀ p ∈ m, 1 ≤ p.2)
    (e : String × Nat × Nat) (he : e ∈ aggregate maps) :
    1 ≤ e.2.1 ∧ e.2.1 ≤ e.2.2 := by
  refine aggregate_preserves (fun e => 1 ≤ e.2.1 ∧ e.2.1 ≤ e.2.2)
    (fun c => 1 ≤ c) ?_ ?_ maps hfreq e he
  · intro k a t c hc hP
    obtain ⟨h1, h2⟩ := hP
    simp only at h1 h2 ⊢
    exact ⟨by omega, by omega⟩
  · intro w c hc
    exact ⟨le_refl 1, hc⟩

/-- Witness for C2 on the spec's three-article scenario: the aggregate of
`{ai: 2, cloud: 1}`, `{ai: 1, cloud: 2}`, `{server: 1}` contains
`ai ↦ (2, 3)`, which satisfies both inequalities. -/
theorem final_table_invariant_witness :
    (1 : Nat) ≤ 2 ∧ (2 : Nat) ≤ 3 := by
  have h := final_table_invariant
    [[("ai", 2), ("cloud", 1)], [("ai", 1), ("cloud", 2)], [("server", 1)]]
    (by decide) ("ai", (2, 3)) (by decide)
  exact h

/-- C10: safe division in the result view. Every entry of the displayed
ranked table has `articleOccurrenceCount ≥ 1`, so the per-row intensity
ratio `count[1]/count[0]` (`'TF/기사'`, test.py line 317) never divides by
zero: the zero-divisor case is unreachable. -/
theorem displayed_entry_count_pos (maps : List (List (String × Nat)))
    (topN : Nat) (e : String × Nat × Nat)
    (he : e ∈ displayed_stats maps topN) : 0 < e.2.1 := by
  have hsorted : e ∈ sorted_stats (aggregate maps) :=
    List.mem_of_mem_take he
  have hagg : e ∈ aggregate maps :=
    (List.perm_insertionSort _ (aggregate maps)).mem_iff.mp hsorted
  refine aggregate_preserves (fun e => 0 < e.2.1) (fun _ => True)
    ?_ ?_ maps (by intro m _ p _; trivial) e hagg
  · intro k a t c _ hP
    simp only at hP ⊢
    omega
  · intro w c _
    exact Nat.one_pos

/-- Witness for C10: the single-article aggregate `{ai: (1, 2)}` is
displayed as-is, and its article count 1 is positive. -/
theorem displayed_entry_count_pos_witness : (0 : Nat) < 1 := by
  have hmem : (("ai", ((1 : Nat), (2 : Nat))) : String × Nat × Nat)
      ∈ displayed_stats [[("ai", 2)]] 1 := by
    have hagg : aggregate [[("ai", 2)]] = [("ai", (1, 2))] := by decide
    simp [displayed_stats, hagg, sorted_stats, List.insertionSort]
  exact displayed_entry_count_pos [[("ai", 2)]] 1 ("ai", (1, 2)) hmem

/-- Inserting an element whose key equals `cv` into a list places it before
every other element of key `cv` already present (stability of the stable
descending sort): on the `κ x = cv` rows, `orderedInsert` is a cons. -/
lemma filter_orderedInsert_key_eq {α β : Type} [LinearOrder β] (κ : α → β)
    (cv : β) (a : α) (h : κ a = cv) (L : List α) :
    (List.orderedInsert (keyLe κ) a L).filter (fun x => decide (κ x = cv))
      = a :: L.filter (fun x => decide (κ x = cv)) := by
  induction L with
  | nil => simp [List.orderedInsert, h]
  | cons b l ih =>
    by_cases hr : keyLe κ a b
    · rw [List.orderedInsert, if_pos hr]
      simp [List.filter_cons, h]
    · rw [List.orderedInsert, if_neg hr]
      have hb : κ b ≠ cv := by
        intro hbc
        exact hr (le_of_eq (hbc.trans h.symm))
      simp [List.filter_cons, hb, ih]

/-- Inserting an element whose key differs from `cv` leaves the `κ x = cv`
rows of the list untouched. -/
lemma filter_orderedInsert_key_ne {α β : Type} [LinearOrder β] (κ : α → β)
    (cv : β) (a : α) (h : κ a ≠ cv) (L : List α) :
    (List.orderedInsert (keyLe κ) a L).filter (fun x => decide (κ x = cv))
      = L.filter (fun x => decide (κ x = cv)) := by
  induction L with
  | nil => simp [List.orderedInsert, h]
  | cons b l ih =>
    by_cases hr : keyLe κ a b
    · rw [List.orderedInsert, if_pos hr]
      simp [List.filter_cons, h]
    · rw [List.orderedInsert, if_neg hr]
      simp [List.filter_cons, ih]

/-- Stability of the stable descending sort: restricted to the rows with
any fixed key value, sorting is the identity — the rows keep their original
relative order. -/
lemma filter_key_insertionSort {α β : Type} [LinearOrder β] (κ : α → β)
    (cv : β) (l : List α) :
    (List.insertionSort (keyLe κ) l).filter (fun x => decide (κ x = cv))
      = l.filter (fun x => decide (κ x = cv)) := by
  induction l with
  | nil => rfl
  | cons a l ih =>
    rw [List.insertionSort]
    by_cases h : κ a = cv
    · rw [filter_orderedInsert_key_eq κ cv a h, ih]
      simp [List.filter_cons, h]
    · rw [filter_orderedInsert_key_ne κ cv a h, ih]
      simp [List.filter_cons, h]

/-- C3: ranking order. `sorted_stats` is non-increasing under the tuple
`(articleOccurrenceCount, totalFrequency)` compared lexicographically
(primary key descending article count, secondary descending total
frequency); it is a permutation of the table; and on the rows with any
fixed tuple value it is the identity, so entries with equal tuples keep the
table's insertion order — the token first inserted (first seen across the
article stream) appears first. -/
theorem ranking_order (T : Table) :
    List.Pairwise
      (fun x y : String × Nat × Nat =>
        y.2.1 < x.2.1 ∨ (y.2.1 = x.2.1 ∧ y.2.2 ≤ x.2.2))
      (sorted_stats T)
    ∧ (∀ k : Nat × Nat,
        (sorted_stats T).filter (fun e => decide (e.2 = k))
          = T.filter (fun e => decide (e.2 = k)))
    ∧ (sorted_stats T).Perm T := by
  refine ⟨?_, ?_, List.perm_insertionSort _ T⟩
  · have hs :=
      List.sorted_insertionSort (keyLe fun e : String × Nat × Nat => toLex e.2) T
    refine hs.imp ?_
    intro x y h
    exact (Prod.Lex.le_iff y.2 x.2).mp h
  · intro k
    have h := filter_key_insertionSort
      (fun e : String × Nat × Nat => toLex e.2) (toLex k) T
    have hpred : (fun e : String × Nat × Nat => decide (toLex e.2 = toLex k))
        = fun e : String × Nat × Nat => decide (e.2 = k) := by
      funext e
      simp [toLex_inj]
    rw [hpred] at h
    exact h

/-- `uniqueInOrder` keeps exactly the elements of the original list. -/
lemma mem_uniqueInOrder (l : List String) (a : String) :
    a ∈ uniqueInOrder l ↔ a ∈ l := by
  induction l with
  | nil => simp [uniqueInOrder]
  | cons w ws ih =>
    constructor
    · intro h
      rcases List.mem_cons.mp h with rfl | hmem
      · exact List.mem_cons_self _ _
      · exact List.mem_cons_of_mem _ (ih.mp (List.mem_filter.mp hmem).1)
    · intro h
      rcases List.mem_cons.mp h with rfl | hmem
      · exact List.mem_cons_self _ _
      · by_cases haw : a = w
        · exact haw ▸ List.mem_cons_self _ _
        · exact List.mem_cons_of_mem _
            (List.mem_filter.mpr ⟨ih.mpr hmem, by simpa using haw⟩)

/-- The elements of `uniqueInOrder l` are listed in strictly increasing
order of their first occurrence in `l`. -/
lemma pairwise_indexOf_uniqueInOrder (l : List String) :
    List.Pairwise (fun a b => l.indexOf a < l.indexOf b) (uniqueInOrder l) := by
  induction l with
  | nil => simp [uniqueInOrder]
  | cons w ws ih =>
    rw [uniqueInOrder]
    refine List.Pairwise.cons ?_ ?_
    · intro b hb
      have hbw : b ≠ w := by
        simpa using (List.mem_filter.mp hb).2
      have hwb : (w == b) = false := beq_eq_false_iff_ne.mpr (Ne.symm hbw)
      have h1 : (w :: ws).indexOf w = 0 := by
        simp [List.indexOf_cons]
      have h2 : (w :: ws).indexOf b = ws.indexOf b + 1 := by
        simp [List.indexOf_cons, hwb]
      omega
    · have hsub := List.filter_sublist (p := fun x => decide (x ≠ w))
        (l := uniqueInOrder ws)
      have hp : List.Pairwise (fun a b => ws.indexOf a < ws.indexOf b)
          ((uniqueInOrder ws).filter (fun x => decide (x ≠ w))) :=
        List.Pairwise.sublist hsub ih
      refine List.Pairwise.imp_of_mem ?_ hp
      intro a b ha hb hr
      have haw : (w == a) = false :=
        beq_eq_false_iff_ne.mpr
          (Ne.symm (by simpa using (List.mem_filter.mp ha).2))
      have hbw : (w == b) = false :=
        beq_eq_false_iff_ne.mpr
          (Ne.symm (by simpa using (List.mem_filter.mp hb).2))
      have h1 : (w :: ws).indexOf a = ws.indexOf a + 1 := by
        simp [List.indexOf_cons, haw]
      have h2 : (w :: ws).indexOf b = ws.indexOf b + 1 := by
        simp [List.indexOf_cons, hbw]
      omega

/-- C4: per-article top-N selection. The selected keyword map
`value_counts(words).head(n)` has one row per selected distinct token with
its exact in-article occurrence count, is ordered by count descending, has
exactly `min n (#distinct words)` rows, and is a true top-N: any token of
the article left unselected has either a strictly smaller count than every
selected row, or an equal count and a strictly later first occurrence in
the filtered token sequence (earlier first appearance wins ties). -/
theorem per_article_top_n (words : List String) (n : Nat) :
    (value_counts_head words n).length = min n (uniqueInOrder words).length
    ∧ (∀ p ∈ value_counts_head words n, p.1 ∈ words ∧ p.2 = words.count p.1)
    ∧ List.Pairwise (fun p q : String × Nat => q.2 ≤ p.2)
        (value_counts_head words n)
    ∧ (∀ p ∈ value_counts_head words n, ∀ v ∈ words,
        v ∉ (value_counts_head words n).map Prod.fst →
        words.count v < p.2
        ∨ (words.count v = p.2 ∧ words.indexOf p.1 < words.indexOf v)) := by
  have hperm : (value_counts words).Perm (counts_series words) :=
    List.perm_insertionSort _ _
  have hsorted : List.Pairwise
      (keyLe fun p : String × Nat => p.2) (value_counts words) :=
    List.sorted_insertionSort (keyLe fun p : String × Nat => p.2)
      (counts_series words)
  refine ⟨?_, ?_, ?_, ?_⟩
  · simp [value_counts_head, List.length_take, hperm.length_eq,
      counts_series]
  · intro p hp
    have hpS : p ∈ value_counts words := List.mem_of_mem_take hp
    rcases List.mem_map.mp (hperm.mem_iff.mp hpS) with ⟨w, hw, rfl⟩
    exact ⟨(mem_uniqueInOrder words w).mp hw, rfl⟩
  · exact List.Pairwise.sublist (List.take_sublist n _) hsorted
  · intro p hp v hv hnot
    have hvS : (v, words.count v) ∈ value_counts words :=
      hperm.mem_iff.mpr
        (List.mem_map.mpr ⟨v, (mem_uniqueInOrder words v).mpr hv, rfl⟩)
    have hev_not : (v, words.count v) ∉ List.take n (value_counts words) := by
      intro hmem
      exact hnot (List.mem_map.mpr ⟨(v, words.count v), hmem, rfl⟩)
    have hev_drop : (v, words.count v) ∈ List.drop n (value_counts words) := by
      have hsplitmem : (v, words.count v)
          ∈ List.take n (value_counts words) ++ List.drop n (value_counts words) := by
        rw [List.take_append_drop]
        exact hvS
      rcases List.mem_append.mp hsplitmem with h | h
      · exact absurd h hev_not
      · exact h
    have hsplitpw : List.Pairwise (keyLe fun p : String × Nat => p.2)
        (List.take n (value_counts words) ++ List.drop n (value_counts words)) := by
      rw [List.take_append_drop]
      exact hsorted
    have hle : words.count v ≤ p.2 :=
      (List.pairwise_append.mp hsplitpw).2.2 p hp (v, words.count v) hev_drop
    rcases lt_or_eq_of_le hle with hlt | heq
    · exact Or.inl hlt
    · right
      refine ⟨heq, ?_⟩
      have hstab : (value_counts words).filter (fun x => decide (x.2 = p.2))
          = (counts_series words).filter (fun x => decide (x.2 = p.2)) :=
        filter_key_insertionSort (fun p : String × Nat => p.2) p.2
          (counts_series words)
      have hidxc : List.Pairwise
          (fun a b : String × Nat => words.indexOf a.1 < words.indexOf b.1)
          ((counts_series words).filter (fun x => decide (x.2 = p.2))) := by
        refine List.Pairwise.sublist (List.filter_sublist _) ?_
        exact List.pairwise_map.mpr (pairwise_indexOf_uniqueInOrder words)
      have hsplitf : (value_counts words).filter (fun x => decide (x.2 = p.2))
          = (List.take n (value_counts words)).filter (fun x => decide (x.2 = p.2))
            ++ (List.drop n (value_counts words)).filter (fun x => decide (x.2 = p.2)) := by
        rw [← List.filter_append, List.take_append_drop]
      have hidxS : List.Pairwise
          (fun a b : String × Nat => words.indexOf a.1 < words.indexOf b.1)
          ((List.take n (value_counts words)).filter (fun x => decide (x.2 = p.2))
            ++ (List.drop n (value_counts words)).filter (fun x => decide (x.2 = p.2))) := by
        rw [← hsplitf, hstab]
        exact hidxc
      have hpf : p ∈ (List.take n (value_counts words)).filter
          (fun x => decide (x.2 = p.2)) :=
        List.mem_filter.mpr ⟨hp, by simp⟩
      have hvf : (v, words.count v) ∈ (List.drop n (value_counts words)).filter
          (fun x => decide (x.2 = p.2)) :=
        List.mem_filter.mpr ⟨hev_drop, by simp [heq]⟩
      exact (List.pairwise_append.mp hidxS).2.2 p hpf (v, words.count v) hvf

/-- Witness for C4: with filtered tokens `["ai", "ai", "cloud"]` and
`n = 1`, the selection is `{ai: 2}` and the unselected token `cloud` has a
strictly smaller count. -/
theorem per_article_top_n_witness :
    List.count "cloud" ["ai", "ai", "cloud"] < 2
    ∨ (List.count "cloud" ["ai", "ai", "cloud"] = 2
        ∧ List.indexOf "ai" ["ai", "ai", "cloud"]
            < List.indexOf "cloud" ["ai", "ai", "cloud"]) :=
  (per_article_top_n ["ai", "ai", "cloud"] 1).2.2.2 ("ai", 2) (by decide)
    "cloud" (by decide) (by decide)

/-- C5: per-article extraction postconditions. For every article outcome,
stopword set and `maxKeywords`, the returned per-article keyword map has at
most `maxKeywords` entries, and every returned token has length between 2
and 10 characters and is not in the active stopword set. -/
theorem extraction_postconditions (a : FetchResult) (stopwords : Finset String)
    (n : Nat) :
    (extract_keywords_from_article a stopwords n).length ≤ n
    ∧ ∀ p ∈ extract_keywords_from_article a stopwords n,
        2 ≤ p.1.length ∧ p.1.length ≤ 10 ∧ p.1 ∉ stopwords := by
  cases a with
  | ok tokens =>
    constructor
    · show (value_counts_head (filter_words tokens stopwords) n).length ≤ n
      rw [value_counts_head]
      exact List.length_take_le n _
    · intro p hp
      have hpS : p ∈ value_counts (filter_words tokens stopwords) :=
        List.mem_of_mem_take hp
      have hperm := List.perm_insertionSort
        (keyLe fun p : String × Nat => p.2)
        (counts_series (filter_words tokens stopwords))
      rcases List.mem_map.mp (hperm.mem_iff.mp hpS) with ⟨w, hw, rfl⟩
      have hwf : w ∈ filter_words tokens stopwords :=
        (mem_uniqueInOrder _ w).mp hw
      have := (List.mem_filter.mp hwf).2
      simpa using this
  | notNaverLink => exact ⟨Nat.zero_le n, by intro p hp; cases hp⟩
  | fetchError => exact ⟨Nat.zero_le n, by intro p hp; cases hp⟩
  | noContentTag => exact ⟨Nat.zero_le n, by intro p hp; cases hp⟩
  | tokenizeError => exact ⟨Nat.zero_le n, by intro p hp; cases hp⟩

/-- Witness for C5: extracting from tokens
`["ai", "ai", "cloud", "x"]` with stopword set `{cloud}` and `n = 2`
selects `{ai: 2}`; the returned token `ai` obeys all three postconditions. -/
theorem extraction_postconditions_witness :
    2 ≤ ("ai" : String).length ∧ ("ai" : String).length ≤ 10
      ∧ ("ai" : String) ∉ ({"cloud"} : Finset String) :=
  (extraction_postconditions (FetchResult.ok ["ai", "ai", "cloud", "x"])
    {"cloud"} 2).2 ("ai", 2) (by decide)

/-- An article that contributes the empty keyword map leaves the running
table unchanged. -/
lemma foldArticle_nil (T : Table) : foldArticle T [] = T := rfl

/-- Keeping the elements a predicate rejects keeps exactly
`length - (number of accepted elements)` of them. -/
lemma length_filter_not {α : Type} (p : α → Bool) (l : List α) :
    (l.filter (fun a => !(p a))).length = l.length - (l.filter p).length := by
  induction l with
  | nil => rfl
  | cons a rest ih =>
    have hle : (rest.filter p).length ≤ rest.length :=
      List.length_filter_le _ _
    cases hpa : p a <;> simp [List.filter_cons, hpa, ih]
    all_goals omega

/-- Folding the mapped extraction results ignores unreachable articles. -/
lemma foldl_extract_filter (stopwords : Finset String) (n : Nat)
    (articles : List FetchResult) :
    ∀ T : Table,
      (articles.map (fun a => extract_keywords_from_article a stopwords n)).foldl
          foldArticle T
        = ((articles.filter (fun a => !(isUnreachable a))).map
            (fun a => extract_keywords_from_article a stopwords n)).foldl
            foldArticle T := by
  induction articles with
  | nil => intro T; rfl
  | cons a rest ih =>
    intro T
    cases a with
    | fetchError =>
      have h1 : extract_keywords_from_article FetchResult.fetchError stopwords n
          = [] := rfl
      simp only [List.map_cons, List.filter_cons, List.foldl_cons, h1,
        foldArticle_nil, isUnreachable, Bool.not_true, cond_false]
      exact ih T
    | ok tokens =>
      simp only [List.map_cons, List.filter_cons, List.foldl_cons,
        isUnreachable, Bool.not_false, cond_true]
      exact ih _
    | notNaverLink =>
      simp only [List.map_cons, List.filter_cons, List.foldl_cons,
        isUnreachable, Bool.not_false, cond_true]
      exact ih _
    | noContentTag =>
      simp only [List.map_cons, List.filter_cons, List.foldl_cons,
        isUnreachable, Bool.not_false, cond_true]
      exact ih _
    | tokenizeError =>
      simp only [List.map_cons, List.filter_cons, List.foldl_cons,
        isUnreachable, Bool.not_false, cond_true]
      exact ih _

/-- C6: partial-failure tolerance. Every failure during fetch, parse or
tokenize of a single article yields the empty keyword map (the exception is
swallowed) and the analysis continues; the run always completes, its
aggregate equals the aggregate over just the reachable articles, and with
`K` unreachable articles out of `N` exactly `N - K` articles remain. -/
theorem partial_failure_tolerance (articles : List FetchResult)
    (stopwords : Finset String) (n : Nat) :
    extract_keywords_from_article FetchResult.fetchError stopwords n = []
    ∧ extract_keywords_from_article FetchResult.noContentTag stopwords n = []
    ∧ extract_keywords_from_article FetchResult.tokenizeError stopwords n = []
    ∧ extract_keywords_from_article FetchResult.notNaverLink stopwords n = []
    ∧ run_analysis articles stopwords n
        = run_analysis (articles.filter (fun a => !(isUnreachable a))) stopwords n
    ∧ (articles.filter (fun a => !(isUnreachable a))).length
        = articles.length - (articles.filter isUnreachable).length := by
  refine ⟨rfl, rfl, rfl, rfl, ?_, ?_⟩
  · exact foldl_extract_filter stopwords n articles []
  · exact length_filter_not isUnreachable articles

/-- An aborted accumulation stays aborted for the rest of the loop. -/
lemma foldl_extend_items_none (pages : List ApiOutcome) :
    pages.foldl extend_items none = none := by
  induction pages with
  | nil => rfl
  | cons p rest ih =>
    have hstep : extend_items none p = none := by
      unfold extend_items
      cases get_naver_news_main p <;> rfl
    rw [List.foldl_cons, hstep, ih]

/-- A failing page aborts the accumulation whatever was collected so far. -/
lemma extend_items_of_error (acc : Option (List NewsItem)) (page : ApiOutcome)
    (h : get_naver_news_main page = none) : extend_items acc page = none := by
  unfold extend_items
  rw [h]
  cases acc <;> rfl

/-- C7 counterexample: in test.py the claim fails. With pages
`[ok [a1], HTTP 401, ok [a3]]` the run does not stop at the
authentication failure: the loop carries on, silently drops page 2, and
completes with the partial collection `[a1, a3]` that feeds aggregation.
Moreover the caller receives no distinct error kind: an auth failure, a
quota failure, a network failure and a successful empty response all
return the same empty list. -/
theorem fatal_search_error_counterexample :
    collect_items_test
        [ApiOutcome.ok [⟨"a1", "l1", "d1"⟩],
         ApiOutcome.httpError 401,
         ApiOutcome.ok [⟨"a3", "l3", "d3"⟩]] 300 []
      = [⟨"a1", "l1", "d1"⟩, ⟨"a3", "l3", "d3"⟩]
    ∧ get_naver_news_test (ApiOutcome.httpError 401)
        = get_naver_news_test (ApiOutcome.ok [])
    ∧ get_naver_news_test (ApiOutcome.httpError 403)
        = get_naver_news_test ApiOutcome.connError := by
  refine ⟨?_, rfl, rfl⟩
  rfl

/-- C7 (amended): fatal search-API errors. In main.py every search-API
failure — authentication (401), quota/permission (403), other HTTP codes,
or a network failure — surfaces a distinct error kind and makes
`get_naver_news` return `None`, so a run whose page sequence contains any
failing page aborts (`items.extend(None)` raises) with no item list and
hence no partial aggregate. In test.py, by contrast, every search-API
failure is swallowed into an empty page indistinguishable from success and
the run continues. -/
theorem fatal_search_error_policy (pages : List ApiOutcome)
    (h : ∃ p ∈ pages, get_naver_news_main p = none) :
    collect_items_main pages = none
    ∧ naver_error_kind (ApiOutcome.httpError 401) = some ApiErrKind.invalidKey
    ∧ naver_error_kind (ApiOutcome.httpError 403)
        = some ApiErrKind.quotaOrPermission
    ∧ (∀ code, code ≠ 401 → code ≠ 403 →
        naver_error_kind (ApiOutcome.httpError code)
          = some (ApiErrKind.otherHttp code))
    ∧ naver_error_kind ApiOutcome.connError = some ApiErrKind.connection
    ∧ (∀ code, get_naver_news_test (ApiOutcome.httpError code) = [])
    ∧ get_naver_news_test ApiOutcome.connError = [] := by
  refine ⟨?_, rfl, rfl, ?_, rfl, fun code => rfl, rfl⟩
  · suffices hgen : ∀ pages : List ApiOutcome, ∀ acc : Option (List NewsItem),
        (∃ p ∈ pages, get_naver_news_main p = none) →
        pages.foldl extend_items acc = none by
      exact hgen pages (some []) h
    intro pages0
    induction pages0 with
    | nil =>
      intro acc hex
      rcases hex with ⟨p, hp, _⟩
      cases hp
    | cons q rest ih =>
      intro acc hex
      by_cases hq : get_naver_news_main q = none
      · rw [List.foldl_cons, extend_items_of_error acc q hq,
          foldl_extend_items_none]
      · rcases hex with ⟨p, hp, hpnone⟩
        rcases List.mem_cons.mp hp with rfl | hprest
        · exact absurd hpnone hq
        · exact ih (extend_items acc q) ⟨p, hprest, hpnone⟩
  · intro code h401 h403
    simp [naver_error_kind, h401, h403]

/-- Witness for C7's amended theorem: a page sequence whose second page
fails with HTTP 401 collects no item list at all. -/
theorem fatal_search_error_policy_witness :
    collect_items_main
        [ApiOutcome.ok [⟨"a1", "l1", "d1"⟩], ApiOutcome.httpError 401] = none :=
  (fatal_search_error_policy
      [ApiOutcome.ok [⟨"a1", "l1", "d1"⟩], ApiOutcome.httpError 401]
      ⟨ApiOutcome.httpError 401, by simp, rfl⟩).1

/-- C8: stopword round trip. Saving any stopword set fully overwrites the
prior file contents with the sorted element list, and loading immediately
after saving returns the saved set (order-independent set equality). -/
theorem stopword_round_trip (s : Finset String)
    (priorContents : Option (List String)) :
    load_user_stopwords (save_user_stopwords s priorContents) = s
    ∧ List.Sorted (fun a b : String => a ≤ b)
        ((save_user_stopwords s priorContents).getD []) := by
  constructor
  · show (s.sort (fun a b : String => a ≤ b)).toFinset = s
    exact Finset.sort_toFinset _ s
  · show List.Sorted (fun a b : String => a ≤ b)
        (s.sort (fun a b : String => a ≤ b))
    exact Finset.sort_sorted _ s

/-- C9: idempotence of stopword edits. `add` is set union and `remove` is
set difference; removing just-added words restores the original set when
they were disjoint from it, and adding words already present is a no-op. -/
theorem stopword_edit_idempotence (s w : Finset String) :
    (Disjoint w s → remove_stopwords (add_stopwords s w) w = s)
    ∧ (w ⊆ s → add_stopwords s w = s) := by
  constructor
  · intro hd
    ext a
    simp only [remove_stopwords, add_stopwords, Finset.mem_sdiff,
      Finset.mem_union]
    constructor
    · rintro ⟨h1 | h2, hn⟩
      · exact h1
      · exact absurd h2 hn
    · intro ha
      exact ⟨Or.inl ha, fun hw => (Finset.disjoint_left.mp hd hw) ha⟩
  · intro hsub
    exact Finset.union_eq_left.mpr hsub

/-- Witness for C9: `{ai}` with the disjoint word set `{cloud}` added and
removed is `{ai}` again, and adding the already-present `{ai}` is a no-op. -/
theorem stopword_edit_idempotence_witness :
    remove_stopwords (add_stopwords {"ai"} {"cloud"}) {"cloud"} = {"ai"}
    ∧ add_stopwords {"ai"} {"ai"} = {"ai"} :=
  ⟨(stopword_edit_idempotence {"ai"} {"cloud"}).1 (by decide),
   (stopword_edit_idempotence {"ai"} {"ai"}).2 (by decide)⟩

end NewsKeyword
